import Mathlib

/-!
Verification of the OHLCV fetch/merge routine (`data_fetcher.update_pair`,
`data_fetcher.fetch_ohlcv`) and the Telegram message chunker
(`telegram_bot.split_message`) of the OctoAdvisor repository, as a shallow
embedding in Lean.

Strings are modelled as `List Char`; a Candle row is `Nat × V` (millisecond
timestamp paired with its OHLCV payload, which the merge code never inspects,
hence an arbitrary type `V`); a Series is a `List (Nat × V)`.
-/

namespace OctoAdvisor

/-! ### telegram_bot.split_message -/

/-- Python `str.lstrip()` whitespace test, restricted to the ASCII whitespace
characters (space, tab, newline, carriage return, vertical tab, form feed). -/
def isPySpace (c : Char) : Bool :=
  c = ' ' || c = '\t' || c = '\n' || c = '\r' || c.toNat == 11 || c.toNat == 12

/-- `message.lstrip()`. -/
def pyLstrip (s : List Char) : List Char := s.dropWhile isPySpace

/-- `s.rfind('\n')`: index of the last newline of `s`, `none` when there is
none (Python returns `-1`). -/
def rfindNl : List Char → Option Nat
  | [] => none
  | c :: rest =>
    match rfindNl rest with
    | some i => some (i + 1)
    | none => if c = '\n' then some 0 else none

/-- `split_point` of one loop iteration: `message[:max_length].rfind('\n')`,
replaced by `max_length` when the result is `-1`. -/
def splitPoint (message : List Char) (maxLength : Nat) : Nat :=
  match rfindNl (message.take maxLength) with
  | some i => i
  | none => maxLength

/-- The remaining message after one loop iteration:
`message[split_point:].lstrip()`. -/
def stepRemainder (message : List Char) (maxLength : Nat) : List Char :=
  pyLstrip (message.drop (splitPoint message maxLength))

/-- The `while message:` loop of `split_message`, with explicit fuel (the
Python loop can diverge when `max_length = 0`, see
`split_message_terminates`). -/
def splitMessageLoop : Nat → List Char → Nat → List (List Char)
  | 0, _, _ => []
  | fuel + 1, message, maxLength =>
    if message = [] then []
    else if message.length ≤ maxLength then [message]
    else
      message.take (splitPoint message maxLength) ::
        splitMessageLoop fuel (stepRemainder message maxLength) maxLength

/-- `telegram_bot.split_message`.  `message.length` fuel suffices for
`max_length ≥ 1` because every iteration strictly shortens the message. -/
def split_message (message : List Char) (maxLength : Nat) : List (List Char) :=
  if message.length ≤ maxLength then [message]
  else splitMessageLoop message.length message maxLength

/-- Concatenation of chunks with one interleaved (re-inserted) string after
each chunk but the last; a further trailing string may follow the final chunk
when `ws` has as many entries as `cs`. -/
def joinParts : List (List Char) → List (List Char) → List Char
  | [], _ => []
  | c :: cs, [] => c ++ joinParts cs []
  | c :: cs, w :: ws => c ++ (w ++ joinParts cs ws)

/-! ### data_fetcher.update_pair merge step -/

/-- `df[~df.index.duplicated(keep="last")]`: keep a row exactly when no later
row carries the same timestamp. -/
def dedupKeepLast {V : Type} : List (Nat × V) → List (Nat × V)
  | [] => []
  | r :: rest =>
    if rest.any (fun s => s.1 == r.1) then dedupKeepLast rest
    else r :: dedupKeepLast rest

/-- Insertion into a timestamp-sorted list (stable: an equal timestamp is
placed before existing ones only if strictly smaller never occurs; with the
unique timestamps produced by `dedupKeepLast` any comparison sort agrees). -/
def insertTs {V : Type} (r : Nat × V) : List (Nat × V) → List (Nat × V)
  | [] => [r]
  | s :: rest => if r.1 ≤ s.1 then r :: s :: rest else s :: insertTs r rest

/-- `df.sort_index()`: sort rows ascending by timestamp. -/
def sortByTs {V : Type} : List (Nat × V) → List (Nat × V)
  | [] => []
  | r :: rest => insertTs r (sortByTs rest)

/-- The merge step of `update_pair` (lines 238-243): when the prior frame is
non-empty, concatenate, drop duplicated timestamps keeping the last
occurrence, and sort by index; when the prior frame is empty the fetched
frame is taken unchanged. -/
def mergeSeries {V : Type} (dfOld dfNew : List (Nat × V)) : List (Nat × V) :=
  if dfOld.isEmpty then dfNew
  else sortByTs (dedupKeepLast (dfOld ++ dfNew))

/-- The well-formedness invariant of a stored Series: strictly increasing
timestamps (which also rules out duplicates). -/
def strictlyIncreasing {V : Type} (df : List (Nat × V)) : Prop :=
  List.Pairwise (fun a b => a.1 < b.1) df

/-- The last row of `l` whose timestamp is `t`, scanning from the back. -/
def lastRowAt {V : Type} (t : Nat) : List (Nat × V) → Option (Nat × V)
  | [] => none
  | r :: rest =>
    match lastRowAt t rest with
    | some s => some s
    | none => if r.1 = t then some r else none

/-! ### data_fetcher.fetch_ohlcv pagination loop and cursor -/

/-- `df_old.index.max()`: the greatest timestamp of the frame. -/
def maxTs {V : Type} (df : List (Nat × V)) : Nat :=
  (df.map Prod.fst).foldr Nat.max 0

/-- Initial fetch cursor of `update_pair` (lines 222-227): one millisecond
after the stored maximum when a stored frame exists, else the parsed
user-supplied start date. -/
def initCursor {V : Type} (stored : Option (List (Nat × V))) (startMs : Nat) : Nat :=
  match stored with
  | some df => maxTs df + 1
  | none => startMs

/-- Observable pauses of the fetch loop: the fixed 5-second retry sleep after
a failed request, and the rate-limit pause after a successful page. -/
inductive FetchEvent : Type
  | retrySleep (secs : Nat)
  | ratePause
deriving DecidableEq, Repr

/-- `chunk[-1][0]`: timestamp of the last row of a page. -/
def lastTs {V : Type} (l : List (Nat × V)) : Nat :=
  match l.getLast? with
  | some r => r.1
  | none => 0

/-- The `while since_ms < now_ms` loop of `fetch_ohlcv`.  The remote exchange
is an oracle list of responses: `none` is a raised exception (caught, slept
5 s, retried with unchanged state), `some []` ends the loop, `some chunk`
extends the accumulator and advances the cursor to `chunk[-1][0] + 1`.
Returns (accumulated rows, final cursor, pause trace). -/
def fetchLoop {V : Type} (nowMs : Nat) :
    List (Option (List (Nat × V))) → Nat → List (Nat × V) →
      List (Nat × V) × Nat × List FetchEvent
  | [], since, acc => (acc, since, [])
  | resp :: rest, since, acc =>
    if since < nowMs then
      match resp with
      | none =>
        let t := fetchLoop nowMs rest since acc
        (t.1, t.2.1, FetchEvent.retrySleep 5 :: t.2.2)
      | some [] => (acc, since, [])
      | some (c :: cs) =>
        let t := fetchLoop nowMs rest (lastTs (c :: cs) + 1) (acc ++ (c :: cs))
        (t.1, t.2.1, FetchEvent.ratePause :: t.2.2)
    else (acc, since, [])

/-- `data_fetcher.fetch_ohlcv`: run the pagination loop from an empty
accumulator. -/
def fetch_ohlcv {V : Type} (nowMs : Nat)
    (responses : List (Option (List (Nat × V)))) (sinceMs : Nat) :
    List (Nat × V) × Nat × List FetchEvent :=
  fetchLoop nowMs responses sinceMs []

example : split_message ['a', 'b'] 5 = [['a', 'b']] := by decide
example : split_message ['\n', 'a', 'b', 'c'] 2 = [[], ['a', 'b'], ['c']] := by decide
example : split_message ['a', '\n', 'b', 'c', 'd'] 3 = [['a'], ['b', 'c', 'd']] := by decide
example : mergeSeries [(1, 10), (3, 30)] [(3, 31), (2, 20)] = [(1, 10), (2, 20), (3, 31)] := by decide
example : mergeSeries ([] : List (Nat × Nat)) [(5, 0), (3, 1)] = [(5, 0), (3, 1)] := by decide
example :
    fetch_ohlcv 100 [none, some [(10, 1), (20, 2)], some []] 0 =
      ([(10, 1), (20, 2)], 21, [FetchEvent.retrySleep 5, FetchEvent.ratePause]) := by decide

/-! ### Supporting lemmas: split_message -/

theorem pyLstrip_length_le (s : List Char) : (pyLstrip s).length ≤ s.length :=
  (List.dropWhile_sublist isPySpace).length_le

theorem rfindNl_lt_length {l : List Char} {i : Nat} (h : rfindNl l = some i) :
    i < l.length := by
  induction l generalizing i with
  | nil => simp [rfindNl] at h
  | cons c rest ih =>
    simp only [rfindNl] at h
    cases hr : rfindNl rest with
    | some j =>
      rw [hr] at h
      injection h with h
      subst h
      exact Nat.succ_lt_succ (ih hr)
    | none =>
      rw [hr] at h
      by_cases hc : c = '\n'
      · simp only [hc, if_pos rfl] at h
        injection h with h
        subst h
        exact Nat.succ_pos _
      · simp [hc] at h

theorem rfindNl_zero {c : Char} {rest : List Char}
    (h : rfindNl (c :: rest) = some 0) : c = '\n' := by
  simp only [rfindNl] at h
  cases hr : rfindNl rest with
  | some j =>
    rw [hr] at h
    injection h with h
    exact absurd h (Nat.succ_ne_zero j)
  | none =>
    rw [hr] at h
    by_cases hc : c = '\n'
    · exact hc
    · simp [hc] at h

theorem splitPoint_le (message : List Char) (maxLength : Nat) :
    splitPoint message maxLength ≤ maxLength := by
  unfold splitPoint
  cases hr : rfindNl (message.take maxLength) with
  | none => exact Nat.le_refl _
  | some i =>
    have h1 := rfindNl_lt_length hr
    have h2 : (message.take maxLength).length ≤ maxLength := by
      rw [List.length_take]
      exact Nat.min_le_left _ _
    exact Nat.le_of_lt (Nat.lt_of_lt_of_le h1 h2)

theorem stepRemainder_length_lt (message : List Char) (maxLength : Nat)
    (h1 : 1 ≤ maxLength) (h2 : maxLength < message.length) :
    (stepRemainder message maxLength).length < message.length := by
  have hpos : 0 < message.length := Nat.lt_of_le_of_lt (Nat.zero_le _) h2
  unfold stepRemainder splitPoint
  cases hr : rfindNl (message.take maxLength) with
  | none =>
    calc (pyLstrip (message.drop maxLength)).length
        ≤ (message.drop maxLength).length := pyLstrip_length_le _
      _ = message.length - maxLength := List.length_drop maxLength message
      _ < message.length := Nat.sub_lt hpos h1
  | some i =>
    cases i with
    | zero =>
      obtain ⟨c, rest, hcons⟩ : ∃ c rest, message = c :: rest := by
        cases message with
        | nil => simp at hpos
        | cons c rest => exact ⟨c, rest, rfl⟩
      subst hcons
      obtain ⟨m, hm⟩ : ∃ m, maxLength = m + 1 :=
        ⟨maxLength - 1, (Nat.succ_pred_eq_of_pos h1).symm⟩
      subst hm
      rw [List.take_succ_cons] at hr
      have hc : c = '\n' := rfindNl_zero hr
      subst hc
      have hstrip : pyLstrip ('\n' :: rest) = pyLstrip rest := by
        rw [pyLstrip, List.dropWhile_cons, if_pos (by decide)]
        rfl
      rw [List.drop_zero, hstrip]
      exact Nat.lt_succ_of_le (pyLstrip_length_le rest)
    | succ j =>
      calc (pyLstrip (message.drop (j + 1))).length
          ≤ (message.drop (j + 1)).length := pyLstrip_length_le _
        _ = message.length - (j + 1) := List.length_drop (j + 1) message
        _ < message.length := Nat.sub_lt hpos (Nat.succ_pos j)

theorem splitMessageLoop_spec (fuel : Nat) :
    ∀ (message : List Char) (maxLength : Nat), 1 ≤ maxLength →
      message.length ≤ fuel →
      (∀ p ∈ splitMessageLoop fuel message maxLength, p.length ≤ maxLength) ∧
      ∃ ws : List (List Char),
        ws.length = (splitMessageLoop fuel message maxLength).length ∧
        (∀ w ∈ ws, ∀ c ∈ w, isPySpace c = true) ∧
        joinParts (splitMessageLoop fuel message maxLength) ws = message := by
  induction fuel with
  | zero =>
    intro message maxLength _ hfuel
    have : message = [] := List.eq_nil_of_length_eq_zero (Nat.le_zero.mp hfuel)
    subst this
    exact ⟨by simp [splitMessageLoop], [], by simp [splitMessageLoop, joinParts]⟩
  | succ fuel ih =>
    intro message maxLength hmax hfuel
    by_cases hnil : message = []
    · subst hnil
      exact ⟨by simp [splitMessageLoop], [], by simp [splitMessageLoop, joinParts]⟩
    by_cases hshort : message.length ≤ maxLength
    · refine ⟨?_, [[]], ?_⟩
      · simp only [splitMessageLoop, if_neg hnil, if_pos hshort]
        intro p hp
        rw [List.mem_singleton] at hp
        subst hp
        exact hshort
      · simp [splitMessageLoop, if_neg hnil, if_pos hshort, joinParts]
    · have hlong : maxLength < message.length := Nat.lt_of_not_le hshort
      have hrem : (stepRemainder message maxLength).length ≤ fuel :=
        Nat.le_of_lt_succ
          (Nat.lt_of_lt_of_le (stepRemainder_length_lt message maxLength hmax hlong) hfuel)
      obtain ⟨ihLen, ws', hws'len, hws'white, hws'join⟩ :=
        ih (stepRemainder message maxLength) maxLength hmax hrem
      have hloop : splitMessageLoop (fuel + 1) message maxLength =
          message.take (splitPoint message maxLength) ::
            splitMessageLoop fuel (stepRemainder message maxLength) maxLength := by
        simp [splitMessageLoop, if_neg hnil, if_neg hshort]
      refine ⟨?_, List.takeWhile isPySpace (message.drop (splitPoint message maxLength)) :: ws',
        ?_, ?_, ?_⟩
      · rw [hloop]
        intro p hp
        rcases List.mem_cons.mp hp with hp | hp
        · subst hp
          rw [List.length_take]
          exact Nat.le_trans (Nat.min_le_left _ _) (splitPoint_le message maxLength)
        · exact ihLen p hp
      · rw [hloop]
        simp [hws'len]
      · intro w hw
        rcases List.mem_cons.mp hw with hw | hw
        · subst hw
          intro c hc
          exact List.mem_takeWhile_imp hc
        · exact hws'white w hw
      · rw [hloop, joinParts, hws'join]
        rw [stepRemainder, pyLstrip, List.takeWhile_append_dropWhile,
          List.take_append_drop]

/-! ### Supporting lemmas: merge step -/

theorem dedupKeepLast_sublist {V : Type} (l : List (Nat × V)) :
    (dedupKeepLast l).Sublist l := by
  induction l with
  | nil => exact List.Sublist.refl _
  | cons r rest ih =>
    by_cases h : rest.any (fun s => s.1 == r.1)
    · rw [dedupKeepLast, if_pos h]
      exact ih.cons r
    · rw [dedupKeepLast, if_neg h]
      exact ih.cons₂ r

theorem mem_of_mem_dedupKeepLast {V : Type} {l : List (Nat × V)} {r : Nat × V}
    (h : r ∈ dedupKeepLast l) : r ∈ l :=
  (dedupKeepLast_sublist l).mem h

theorem nodup_fst_dedupKeepLast {V : Type} (l : List (Nat × V)) :
    ((dedupKeepLast l).map Prod.fst).Nodup := by
  induction l with
  | nil => exact List.nodup_nil
  | cons r rest ih =>
    by_cases h : rest.any (fun s => s.1 == r.1)
    · rw [dedupKeepLast, if_pos h]
      exact ih
    · rw [dedupKeepLast, if_neg h]
      rw [List.map_cons, List.nodup_cons]
      refine ⟨?_, ih⟩
      intro hmem
      obtain ⟨s, hs, hfst⟩ := List.mem_map.mp hmem
      exact h (List.any_eq_true.mpr
        ⟨s, mem_of_mem_dedupKeepLast hs, beq_iff_eq.mpr hfst⟩)

theorem insertTs_perm {V : Type} (r : Nat × V) (l : List (Nat × V)) :
    (insertTs r l).Perm (r :: l) := by
  induction l with
  | nil => exact List.Perm.refl _
  | cons s rest ih =>
    by_cases h : r.1 ≤ s.1
    · rw [insertTs, if_pos h]
    · rw [insertTs, if_neg h]
      exact (ih.cons s).trans (List.Perm.swap r s rest)

theorem sortByTs_perm {V : Type} (l : List (Nat × V)) :
    (sortByTs l).Perm l := by
  induction l with
  | nil => exact List.Perm.refl _
  | cons r rest ih =>
    exact (insertTs_perm r (sortByTs rest)).trans (ih.cons r)

theorem pairwise_le_insertTs {V : Type} (r : Nat × V) (l : List (Nat × V))
    (h : List.Pairwise (fun a b => a.1 ≤ b.1) l) :
    List.Pairwise (fun a b => a.1 ≤ b.1) (insertTs r l) := by
  induction l with
  | nil => simp [insertTs]
  | cons s rest ih =>
    rw [List.pairwise_cons] at h
    obtain ⟨hs, hrest⟩ := h
    by_cases hle : r.1 ≤ s.1
    · rw [insertTs, if_pos hle]
      rw [List.pairwise_cons]
      refine ⟨?_, List.pairwise_cons.mpr ⟨hs, hrest⟩⟩
      intro x hx
      rcases List.mem_cons.mp hx with hx | hx
      · subst hx; exact hle
      · exact Nat.le_trans hle (hs x hx)
    · rw [insertTs, if_neg hle]
      rw [List.pairwise_cons]
      refine ⟨?_, ih hrest⟩
      intro x hx
      have hx' : x ∈ r :: rest := (insertTs_perm r rest).mem_iff.mp hx
      rcases List.mem_cons.mp hx' with hx' | hx'
      · subst hx'
        exact Nat.le_of_lt (Nat.lt_of_not_le hle)
      · exact hs x hx'

theorem pairwise_le_sortByTs {V : Type} (l : List (Nat × V)) :
    List.Pairwise (fun a b => a.1 ≤ b.1) (sortByTs l) := by
  induction l with
  | nil => exact List.Pairwise.nil
  | cons r rest ih => exact pairwise_le_insertTs r (sortByTs rest) ih

theorem insertTs_of_le {V : Type} (r : Nat × V) (l : List (Nat × V))
    (h : ∀ x ∈ l, r.1 ≤ x.1) : insertTs r l = r :: l := by
  cases l with
  | nil => rfl
  | cons s rest =>
    rw [insertTs, if_pos (h s (List.mem_cons_self s rest))]

theorem sortByTs_eq_of_sorted {V : Type} {l : List (Nat × V)}
    (h : List.Pairwise (fun a b => a.1 ≤ b.1) l) : sortByTs l = l := by
  induction l with
  | nil => rfl
  | cons r rest ih =>
    rw [List.pairwise_cons] at h
    rw [sortByTs, ih h.2, insertTs_of_le r rest h.1]

theorem pairwise_lt_of_le_nodup {V : Type} {l : List (Nat × V)}
    (hle : List.Pairwise (fun a b => a.1 ≤ b.1) l)
    (hnd : (l.map Prod.fst).Nodup) :
    List.Pairwise (fun a b => a.1 < b.1) l := by
  have hne : List.Pairwise (fun a b : Nat × V => a.1 ≠ b.1) l :=
    List.pairwise_map.mp hnd
  exact (hle.and hne).imp (fun h => Nat.lt_of_le_of_ne h.1 h.2)

instance {V : Type} : DecidableRel (fun a b : Nat × V => a.1 < b.1) :=
  fun a b => Nat.decLt a.1 b.1

instance {V : Type} (df : List (Nat × V)) : Decidable (strictlyIncreasing df) := by
  unfold strictlyIncreasing
  infer_instance

theorem lastRowAt_fst {V : Type} {t : Nat} {l : List (Nat × V)} {r : Nat × V}
    (h : lastRowAt t l = some r) : r.1 = t := by
  induction l with
  | nil => simp [lastRowAt] at h
  | cons x rest ih =>
    simp only [lastRowAt] at h
    cases hr : lastRowAt t rest with
    | some s =>
      rw [hr] at h
      injection h with h
      subst h
      exact ih hr
    | none =>
      rw [hr] at h
      by_cases hx : x.1 = t
      · rw [if_pos hx] at h
        injection h with h
        subst h
        exact hx
      · rw [if_neg hx] at h
        exact absurd h (Option.noConfusion)

theorem lastRowAt_eq_none {V : Type} {t : Nat} {l : List (Nat × V)}
    (h : lastRowAt t l = none) : ∀ r ∈ l, r.1 ≠ t := by
  induction l with
  | nil => intro r hr; simp at hr
  | cons x rest ih =>
    simp only [lastRowAt] at h
    cases hr : lastRowAt t rest with
    | some s => rw [hr] at h; exact absurd h (Option.noConfusion)
    | none =>
      rw [hr] at h
      intro r hmem
      rcases List.mem_cons.mp hmem with hmem | hmem
      · subst hmem
        intro hfst
        rw [if_pos hfst] at h
        exact Option.noConfusion h
      · exact ih hr r hmem

instance {V : Type} : DecidableRel (fun a b : Nat × V => a.1 ≤ b.1) :=
  fun a b => Nat.decLe a.1 b.1

theorem lastRowAt_mem {V : Type} {t : Nat} {l : List (Nat × V)} {r : Nat × V}
    (h : lastRowAt t l = some r) : r ∈ l := by
  induction l with
  | nil => simp [lastRowAt] at h
  | cons x rest ih =>
    simp only [lastRowAt] at h
    cases hr : lastRowAt t rest with
    | some s =>
      rw [hr] at h
      injection h with h
      subst h
      exact List.mem_cons_of_mem x (ih hr)
    | none =>
      rw [hr] at h
      by_cases hx : x.1 = t
      · rw [if_pos hx] at h
        injection h with h
        subst h
        exact List.mem_cons_self x rest
      · rw [if_neg hx] at h
        exact absurd h Option.noConfusion

theorem mem_dedupKeepLast_of_lastRowAt {V : Type} {t : Nat} {l : List (Nat × V)}
    {r : Nat × V} (h : lastRowAt t l = some r) : r ∈ dedupKeepLast l := by
  induction l with
  | nil => simp [lastRowAt] at h
  | cons x rest ih =>
    simp only [lastRowAt] at h
    cases hr : lastRowAt t rest with
    | some s =>
      rw [hr] at h
      injection h with h
      subst h
      by_cases hdup : rest.any (fun s' => s'.1 == x.1) = true
      · rw [dedupKeepLast, if_pos hdup]
        exact ih hr
      · rw [dedupKeepLast, if_neg hdup]
        exact List.mem_cons_of_mem x (ih hr)
    | none =>
      rw [hr] at h
      by_cases hx : x.1 = t
      · rw [if_pos hx] at h
        injection h with h
        subst h
        have hnone := lastRowAt_eq_none hr
        have hdup : ¬ rest.any (fun s' => s'.1 == x.1) = true := by
          intro hany
          obtain ⟨s, hs, hbeq⟩ := List.any_eq_true.mp hany
          exact hnone s hs (by rw [beq_iff_eq.mp hbeq, hx])
        rw [dedupKeepLast, if_neg hdup]
        exact List.mem_cons_self x _
      · rw [if_neg hx] at h
        exact absurd h Option.noConfusion

theorem lastRowAt_of_mem_dedupKeepLast {V : Type} {l : List (Nat × V)} {r : Nat × V}
    (h : r ∈ dedupKeepLast l) : lastRowAt r.1 l = some r := by
  induction l with
  | nil => simp [dedupKeepLast] at h
  | cons x rest ih =>
    by_cases hdup : rest.any (fun s' => s'.1 == x.1) = true
    · rw [dedupKeepLast, if_pos hdup] at h
      simp only [lastRowAt, ih h]
    · rw [dedupKeepLast, if_neg hdup] at h
      rcases List.mem_cons.mp h with h | h
      · subst h
        have hnone : lastRowAt r.1 rest = none := by
          cases hlr : lastRowAt r.1 rest with
          | none => rfl
          | some s =>
            exact absurd
              (show (rest.any fun s' => s'.1 == r.1) = true from
                List.any_eq_true.mpr
                  ⟨s, lastRowAt_mem hlr, beq_iff_eq.mpr (lastRowAt_fst hlr)⟩)
              hdup
        simp [lastRowAt, hnone]
      · simp only [lastRowAt, ih h]

theorem lastRowAt_append_right {V : Type} {t : Nat} {r : Nat × V}
    (S : List (Nat × V)) {N : List (Nat × V)} (h : lastRowAt t N = some r) :
    lastRowAt t (S ++ N) = some r := by
  induction S with
  | nil => simpa using h
  | cons x rest ih => simp only [List.cons_append, lastRowAt, List.append_eq, ih]

theorem mergeSeries_of_ne_nil {V : Type} {dfOld : List (Nat × V)}
    (h : dfOld ≠ []) (dfNew : List (Nat × V)) :
    mergeSeries dfOld dfNew = sortByTs (dedupKeepLast (dfOld ++ dfNew)) := by
  rw [mergeSeries, if_neg]
  simp [List.isEmpty_eq_false.mpr h]

theorem dedupKeepLast_append_of_covered {V : Type} {l1 l2 : List (Nat × V)}
    (h : ∀ r ∈ l1, ∃ s ∈ l2, s.1 = r.1) :
    dedupKeepLast (l1 ++ l2) = dedupKeepLast l2 := by
  induction l1 with
  | nil => rfl
  | cons r rest ih =>
    obtain ⟨s, hs, hfst⟩ := h r (List.mem_cons_self r rest)
    have hany : (rest ++ l2).any (fun s' => s'.1 == r.1) = true :=
      List.any_eq_true.mpr ⟨s, List.mem_append_right rest hs, beq_iff_eq.mpr hfst⟩
    rw [List.cons_append, dedupKeepLast, if_pos hany]
    exact ih fun x hx => h x (List.mem_cons_of_mem r hx)

theorem dedupKeepLast_eq_of_nodup {V : Type} {l : List (Nat × V)}
    (h : (l.map Prod.fst).Nodup) : dedupKeepLast l = l := by
  induction l with
  | nil => rfl
  | cons r rest ih =>
    rw [List.map_cons, List.nodup_cons] at h
    have hany : ¬ rest.any (fun s' => s'.1 == r.1) = true := by
      intro hany
      obtain ⟨s, hs, hbeq⟩ := List.any_eq_true.mp hany
      exact h.1 (List.mem_map.mpr ⟨s, hs, beq_iff_eq.mp hbeq⟩)
    rw [dedupKeepLast, if_neg hany, ih h.2]

/-! ### Claim theorems: split_message -/

/-- C4: for every message longer than the positive limit, every chunk of
`split_message` has length at most the limit, and the original message is
recovered by concatenating the chunks with a whitespace-only string
re-inserted at each split point (the trimmed leading whitespace of each
continuation; the final such string follows the last chunk exactly when the
trimmed tail was entirely whitespace). -/
theorem split_message_chunks (message : List Char) (maxLength : Nat)
    (h1 : 1 ≤ maxLength) (h2 : maxLength < message.length) :
    (∀ p ∈ split_message message maxLength, p.length ≤ maxLength) ∧
    ∃ ws : List (List Char),
      ws.length = (split_message message maxLength).length ∧
      (∀ w ∈ ws, ∀ c ∈ w, isPySpace c = true) ∧
      joinParts (split_message message maxLength) ws = message := by
  have hspec := splitMessageLoop_spec message.length message maxLength h1 (Nat.le_refl _)
  have hdef : split_message message maxLength =
      splitMessageLoop message.length message maxLength := by
    rw [split_message, if_neg (not_le.mpr h2)]
  rw [hdef]
  exact hspec

/-- Witness for C4 at the concrete input `"\nabc"` with limit 2. -/
theorem split_message_chunks_witness :
    1 ≤ 2 ∧ 2 < (['\n', 'a', 'b', 'c'] : List Char).length ∧
    ((∀ p ∈ split_message ['\n', 'a', 'b', 'c'] 2, p.length ≤ 2) ∧
      ∃ ws : List (List Char),
        ws.length = (split_message ['\n', 'a', 'b', 'c'] 2).length ∧
        (∀ w ∈ ws, ∀ c ∈ w, isPySpace c = true) ∧
        joinParts (split_message ['\n', 'a', 'b', 'c'] 2) ws = ['\n', 'a', 'b', 'c']) :=
  ⟨by decide, by decide, split_message_chunks ['\n', 'a', 'b', 'c'] 2 (by decide) (by decide)⟩

/-- C8: a message whose length is at most the limit is returned unchanged as
the single chunk. -/
theorem split_message_short (message : List Char) (maxLength : Nat)
    (h : message.length ≤ maxLength) :
    split_message message maxLength = [message] := by
  rw [split_message, if_pos h]

/-- Witness for C8 at the concrete input `"hi"` with limit 4. -/
theorem split_message_short_witness :
    (['h', 'i'] : List Char).length ≤ 4 ∧
    split_message ['h', 'i'] 4 = [['h', 'i']] :=
  ⟨by decide, split_message_short ['h', 'i'] 4 (by decide)⟩

/-- C9: for a positive limit every loop iteration of `split_message` strictly
shortens the remaining message (so the loop terminates), while for limit 0
the iteration can leave the message unchanged (here on `"a"`), so the loop
diverges: the positive limit is a genuine precondition. -/
theorem split_message_terminates :
    (∀ (message : List Char) (maxLength : Nat), 1 ≤ maxLength →
        maxLength < message.length →
        (stepRemainder message maxLength).length < message.length) ∧
    stepRemainder ['a'] 0 = ['a'] :=
  ⟨stepRemainder_length_lt, by decide⟩

/-- Witness for C9 at the concrete input `"xyz"` with limit 2. -/
theorem split_message_terminates_witness :
    1 ≤ 2 ∧ 2 < (['x', 'y', 'z'] : List Char).length ∧
    (stepRemainder ['x', 'y', 'z'] 2).length < (['x', 'y', 'z'] : List Char).length :=
  ⟨by decide, by decide, split_message_terminates.1 ['x', 'y', 'z'] 2 (by decide) (by decide)⟩

/-- C10: chunks can be empty: on `"\nabc"` with limit 2 (the only newline of
the first 2 characters sits at index 0) the first returned chunk is the empty
string. -/
theorem split_message_empty_chunk :
    ([] : List Char) ∈ split_message ['\n', 'a', 'b', 'c'] 2 ∧
    split_message ['\n', 'a', 'b', 'c'] 2 = [[], ['a', 'b'], ['c']] := by
  decide

/-! ### Claim theorems: merge step -/

/-- C1 counterexample: the pages `[[(5,·)], [(3,·)]]` have disjoint timestamp
sets, yet merging into an empty prior Series leaves the concatenation in
fetch order `[(5,·), (3,·)]` (the empty-prior branch of `update_pair` takes
the fetched frame unchanged, skipping the sort), which differs from the
concatenation sorted ascending by timestamp. -/
theorem merge_empty_prior_cex :
    (∀ r ∈ ([(5, 0)] : List (Nat × Nat)), ∀ s ∈ ([(3, 1)] : List (Nat × Nat)), r.1 ≠ s.1) ∧
    mergeSeries ([] : List (Nat × Nat)) ([[(5, 0)], [(3, 1)]] : List (List (Nat × Nat))).flatten =
      [(5, 0), (3, 1)] ∧
    mergeSeries ([] : List (Nat × Nat)) ([[(5, 0)], [(3, 1)]] : List (List (Nat × Nat))).flatten ≠
      sortByTs ([[(5, 0)], [(3, 1)]] : List (List (Nat × Nat))).flatten := by
  decide

/-- C1 amended: merging any fetched pages into an empty prior Series yields
exactly their concatenation in fetch order, and this equals the
concatenation sorted ascending by timestamp precisely when the concatenated
pages already arrive in ascending timestamp order. -/
theorem merge_empty_prior {V : Type} (pages : List (List (Nat × V))) :
    mergeSeries [] pages.flatten = pages.flatten ∧
    (List.Pairwise (fun a b => a.1 ≤ b.1) pages.flatten →
      mergeSeries [] pages.flatten = sortByTs pages.flatten) := by
  refine ⟨rfl, fun h => ?_⟩
  exact (sortByTs_eq_of_sorted h).symm

/-- Witness for C1 (amended) at the ascending pages `[[(1,·)], [(2,·)]]`. -/
theorem merge_empty_prior_witness :
    mergeSeries ([] : List (Nat × Nat)) ([[(1, 0)], [(2, 1)]] : List (List (Nat × Nat))).flatten =
      ([[(1, 0)], [(2, 1)]] : List (List (Nat × Nat))).flatten ∧
    mergeSeries ([] : List (Nat × Nat)) ([[(1, 0)], [(2, 1)]] : List (List (Nat × Nat))).flatten =
      sortByTs ([[(1, 0)], [(2, 1)]] : List (List (Nat × Nat))).flatten :=
  ⟨(merge_empty_prior [[(1, 0)], [(2, 1)]]).1,
    (merge_empty_prior [[(1, 0)], [(2, 1)]]).2 (by decide)⟩

/-- C2 counterexample: with no prior stored Series and fetched rows
`[(5,·), (3,·)]` the persisted Series is those rows unchanged, whose
timestamps are not strictly increasing — so the invariant is not preserved
by every update. -/
theorem merge_invariant_cex :
    mergeSeries ([] : List (Nat × Nat)) [(5, 0), (3, 1)] = [(5, 0), (3, 1)] ∧
    ¬ strictlyIncreasing (mergeSeries ([] : List (Nat × Nat)) [(5, 0), (3, 1)]) := by
  decide

/-- C2 amended: after every `update_pair` write with a nonempty prior frame
the persisted Series has strictly increasing timestamps (hence no
duplicates), for every prior Series and every list of fetched rows; with an
empty prior frame the fetched rows are persisted unchanged, so there the
invariant holds only if the fetched rows themselves are strictly
increasing. -/
theorem merge_preserves_invariant {V : Type} (dfOld dfNew : List (Nat × V)) :
    (dfOld ≠ [] → strictlyIncreasing (mergeSeries dfOld dfNew)) ∧
    mergeSeries [] dfNew = dfNew := by
  refine ⟨fun h => ?_, rfl⟩
  rw [mergeSeries_of_ne_nil h]
  have hperm :
      ((sortByTs (dedupKeepLast (dfOld ++ dfNew))).map Prod.fst).Perm
        ((dedupKeepLast (dfOld ++ dfNew)).map Prod.fst) :=
    (sortByTs_perm _).map Prod.fst
  exact pairwise_lt_of_le_nodup (pairwise_le_sortByTs _)
    (hperm.nodup_iff.mpr (nodup_fst_dedupKeepLast _))

/-- Witness for C2 (amended) with prior `[(1,·)]` and unsorted fetched rows
`[(3,·), (2,·)]`. -/
theorem merge_preserves_invariant_witness :
    ([(1, 5)] : List (Nat × Nat)) ≠ [] ∧
    strictlyIncreasing (mergeSeries [(1, 5)] [(3, 6), (2, 7)]) :=
  ⟨by decide, (merge_preserves_invariant [(1, 5)] [(3, 6), (2, 7)]).1 (by decide)⟩

/-- C3: when a timestamp `t` occurs both in the prior Series `S` and among
the newly fetched rows `N`, the merged Series contains `N`'s row at `t`
(its last row at `t`, matching `keep="last"`), it contains no other value at
`t`, and in particular `S`'s row at `t` is gone whenever its value differs:
newest wins on overlapping timestamps. -/
theorem merge_newest_wins {V : Type} (S N : List (Nat × V)) (t : Nat) (vS vN : V)
    (hS : (t, vS) ∈ S) (hN : lastRowAt t N = some (t, vN)) :
    (t, vN) ∈ mergeSeries S N ∧ (∀ v, (t, v) ∈ mergeSeries S N → v = vN) ∧
    (vS ≠ vN → (t, vS) ∉ mergeSeries S N) := by
  have hSne : S ≠ [] := by
    intro h
    subst h
    simp at hS
  have hmerge := mergeSeries_of_ne_nil hSne N
  have hmemiff : ∀ r : Nat × V, r ∈ mergeSeries S N ↔ r ∈ dedupKeepLast (S ++ N) := by
    intro r
    rw [hmerge]
    exact (sortByTs_perm _).mem_iff
  have hlast : lastRowAt t (S ++ N) = some (t, vN) := lastRowAt_append_right S hN
  have huniq : ∀ v, (t, v) ∈ mergeSeries S N → v = vN := by
    intro v hv
    have h2 := lastRowAt_of_mem_dedupKeepLast ((hmemiff _).mp hv)
    have h3 : some ((t, vN) : Nat × V) = some (t, v) := hlast.symm.trans h2
    injection h3 with h3
    exact (congrArg Prod.snd h3).symm
  refine ⟨(hmemiff _).mpr (mem_dedupKeepLast_of_lastRowAt hlast), huniq, ?_⟩
  intro hne hmem
  exact hne (huniq vS hmem)

/-- Witness for C3 with `S = [(1,10)]`, `N = [(1,20)]`. -/
theorem merge_newest_wins_witness :
    ((1, 10) : Nat × Nat) ∈ ([(1, 10)] : List (Nat × Nat)) ∧
    lastRowAt 1 ([(1, 20)] : List (Nat × Nat)) = some (1, 20) ∧
    ((1, 20) : Nat × Nat) ∈ mergeSeries [(1, 10)] [(1, 20)] ∧
    (∀ v, ((1, v) : Nat × Nat) ∈ mergeSeries [(1, 10)] [(1, 20)] → v = 20) ∧
    ((10 : Nat) ≠ 20 → ((1, 10) : Nat × Nat) ∉ mergeSeries [(1, 10)] [(1, 20)]) :=
  ⟨by decide, by decide,
    merge_newest_wins [(1, 10)] [(1, 20)] 1 10 20 (by decide) (by decide)⟩

/-- C5: merging a well-formed Series (strictly increasing timestamps, hence
sorted and duplicate-free) with an identical copy of itself reproduces the
Series unchanged — the merge step is idempotent on well-formed input. -/
theorem merge_self_idempotent {V : Type} (S : List (Nat × V))
    (h : strictlyIncreasing S) : mergeSeries S S = S := by
  have hlt : List.Pairwise (fun a b : Nat × V => a.1 < b.1) S := h
  cases hS : S with
  | nil => rfl
  | cons r rest =>
    rw [← hS]
    have hSne : S ≠ [] := by
      rw [hS]
      simp
    have hle : List.Pairwise (fun a b : Nat × V => a.1 ≤ b.1) S :=
      hlt.imp fun hab => Nat.le_of_lt hab
    have hnd : (S.map Prod.fst).Nodup :=
      List.pairwise_map.mpr (hlt.imp fun hab => Nat.ne_of_lt hab)
    rw [mergeSeries_of_ne_nil hSne,
      dedupKeepLast_append_of_covered fun r' hr' => ⟨r', hr', rfl⟩,
      dedupKeepLast_eq_of_nodup hnd, sortByTs_eq_of_sorted hle]

/-- Witness for C5 at the concrete Series `[(1,5), (2,6)]`. -/
theorem merge_self_idempotent_witness :
    strictlyIncreasing ([(1, 5), (2, 6)] : List (Nat × Nat)) ∧
    mergeSeries [(1, 5), (2, 6)] [(1, 5), (2, 6)] = ([(1, 5), (2, 6)] : List (Nat × Nat)) :=
  ⟨by decide, merge_self_idempotent [(1, 5), (2, 6)] (by decide)⟩

/-! ### Supporting lemmas: fetch loop -/

theorem maxTs_of_sorted {V : Type} {df : List (Nat × V)} {r : Nat × V}
    (hsort : List.Pairwise (fun a b => a.1 ≤ b.1) df)
    (hlast : df.getLast? = some r) : maxTs df = r.1 := by
  induction df with
  | nil => simp at hlast
  | cons x rest ih =>
    cases rest with
    | nil =>
      rw [List.getLast?_singleton] at hlast
      injection hlast with hlast
      subst hlast
      show Nat.max x.1 0 = x.1
      exact Nat.max_eq_left (Nat.zero_le _)
    | cons y rest' =>
      rw [List.getLast?_cons_cons] at hlast
      rw [List.pairwise_cons] at hsort
      have hx : x.1 ≤ r.1 :=
        hsort.1 r (List.mem_of_mem_getLast? hlast)
      show Nat.max x.1 (maxTs (y :: rest')) = r.1
      rw [ih hsort.2 hlast]
      exact Nat.max_eq_right hx

/-! ### Claim theorems: fetch loop -/

/-- C6: the fetch cursor of `update_pair` starts one millisecond after the
stored frame's maximum timestamp — which is the last stored candle's
timestamp for a sorted frame — when a stored Series exists, starts at the
user-specified start date when none exists, and after every non-empty page
the loop continues with cursor `chunk[-1][0] + 1` (recording the rate-limit
pause). -/
theorem fetch_cursor_contract {V : Type} (df : List (Nat × V)) (r : Nat × V)
    (startMs nowMs since : Nat) (rest : List (Option (List (Nat × V))))
    (acc chunk : List (Nat × V)) :
    (List.Pairwise (fun a b => a.1 ≤ b.1) df → df.getLast? = some r →
      initCursor (some df) startMs = r.1 + 1) ∧
    initCursor (none : Option (List (Nat × V))) startMs = startMs ∧
    (since < nowMs → chunk ≠ [] →
      fetchLoop nowMs (some chunk :: rest) since acc =
        ((fetchLoop nowMs rest (lastTs chunk + 1) (acc ++ chunk)).1,
          (fetchLoop nowMs rest (lastTs chunk + 1) (acc ++ chunk)).2.1,
          FetchEvent.ratePause ::
            (fetchLoop nowMs rest (lastTs chunk + 1) (acc ++ chunk)).2.2)) := by
  refine ⟨fun hs hl => ?_, rfl, fun hlt hch => ?_⟩
  · show maxTs df + 1 = r.1 + 1
    rw [maxTs_of_sorted hs hl]
  · cases chunk with
    | nil => exact absurd rfl hch
    | cons c cs => simp only [fetchLoop, if_pos hlt]

/-- Witness for C6: stored frame `[(1,5), (2,6)]`, start date 7, one
successful page `[(10,1)]` with cursor 0 and horizon 100. -/
theorem fetch_cursor_contract_witness :
    initCursor (some ([(1, 5), (2, 6)] : List (Nat × Nat))) 7 =
      ((2, 6) : Nat × Nat).1 + 1 ∧
    initCursor (none : Option (List (Nat × Nat))) 7 = 7 ∧
    fetchLoop 100 (some [(10, 1)] :: ([] : List (Option (List (Nat × Nat))))) 0 [] =
      ((fetchLoop 100 ([] : List (Option (List (Nat × Nat)))) (lastTs [(10, 1)] + 1)
          ([] ++ [(10, 1)])).1,
        (fetchLoop 100 ([] : List (Option (List (Nat × Nat)))) (lastTs [(10, 1)] + 1)
          ([] ++ [(10, 1)])).2.1,
        FetchEvent.ratePause ::
          (fetchLoop 100 ([] : List (Option (List (Nat × Nat)))) (lastTs [(10, 1)] + 1)
            ([] ++ [(10, 1)])).2.2) :=
  ⟨(fetch_cursor_contract [(1, 5), (2, 6)] (2, 6) 7 100 0 [] [] [(10, 1)]).1
      (by decide) (by decide),
    (fetch_cursor_contract [(1, 5), (2, 6)] (2, 6) 7 100 0 [] [] [(10, 1)]).2.1,
    (fetch_cursor_contract [(1, 5), (2, 6)] (2, 6) 7 100 0 [] [] [(10, 1)]).2.2
      (by decide) (by decide)⟩

/-- C7: a failed candle request is caught and retried with the same cursor
and the same accumulated rows after a fixed 5-second sleep; any number `k`
of consecutive failures (no retry cap) yields the same rows and final
cursor as if they had not happened, and the pause trace records exactly `k`
constant 5-second sleeps (no backoff). -/
theorem fetch_retry_contract {V : Type} (k nowMs since : Nat)
    (rest : List (Option (List (Nat × V)))) (acc : List (Nat × V))
    (h : since < nowMs) :
    fetchLoop nowMs (List.replicate k none ++ rest) since acc =
      ((fetchLoop nowMs rest since acc).1,
        (fetchLoop nowMs rest since acc).2.1,
        List.replicate k (FetchEvent.retrySleep 5) ++
          (fetchLoop nowMs rest since acc).2.2) := by
  induction k with
  | zero => simp
  | succ k ih =>
    rw [List.replicate_succ, List.cons_append]
    simp only [fetchLoop, if_pos h, ih, List.replicate_succ, List.cons_append]

/-- Witness for C7: two consecutive failures before an exhausted oracle,
cursor 0, horizon 10. -/
theorem fetch_retry_contract_witness :
    (0 : Nat) < 10 ∧
    fetchLoop 10 (List.replicate 2 none ++ ([] : List (Option (List (Nat × Nat))))) 0 [] =
      ((fetchLoop 10 ([] : List (Option (List (Nat × Nat)))) 0 []).1,
        (fetchLoop 10 ([] : List (Option (List (Nat × Nat)))) 0 []).2.1,
        List.replicate 2 (FetchEvent.retrySleep 5) ++
          (fetchLoop 10 ([] : List (Option (List (Nat × Nat)))) 0 []).2.2) :=
  ⟨by decide, fetch_retry_contract 2 10 0 [] [] (by decide)⟩

end OctoAdvisor
